import Mathlib

/-!
Verification of the name-tagger core (src/main.rs) against its specification.

The development shallowly embeds the program:
* `SuffixTree`, `Cursor` — the trie index and traversal handle from the
  `suffix_tree` module (the `BTreeMap` is embedded as an association list,
  which is observationally equivalent because the program only ever calls
  `get` and `insert` on it, never iterates it);
* `is_punctuation`, `to_lowercase`, `normalize` — the normalization policy;
* `find_matches` — the cursor-set scanner;
* `insertEntry` / `buildDict` / `parseDictLine` / `readDict` / `processLine`
  — `main`'s dictionary construction and per-line scanning pipeline.
-/

set_option maxHeartbeats 1000000

namespace NameTagger

/-- Association list lookup; models `BTreeMap::get` from the `suffix_tree`
module. Only `get` and `insert` are ever applied to the map, so an
association list is an observationally equivalent embedding. -/
def lookupA {α β : Type} [DecidableEq α] : List (α × β) → α → Option β
  | [], _ => none
  | (k, v) :: rest, key => if key = k then some v else lookupA rest key

/-- Association list update; models `BTreeMap::insert`: replaces the value at
an existing key (keeping its position), otherwise adds the binding. -/
def updateA {α β : Type} [DecidableEq α] : List (α × β) → α → β → List (α × β)
  | [], key, v => [(key, v)]
  | (k, w) :: rest, key, v =>
    if key = k then (key, v) :: rest else (k, w) :: updateA rest key v

/-- `SuffixTree<E, V>` (src/main.rs, `suffix_tree` module): a trie node owns a
map from symbol to child node and an optional terminal value. -/
inductive SuffixTree (E V : Type) : Type where
  | node : List (E × SuffixTree E V) → Option V → SuffixTree E V

/-- The `suffixes` field of a `SuffixTree` node. -/
def SuffixTree.suffixes {E V : Type} : SuffixTree E V → List (E × SuffixTree E V)
  | .node s _ => s

/-- The public `value` field of a `SuffixTree` node. -/
def SuffixTree.value {E V : Type} : SuffixTree E V → Option V
  | .node _ v => v

/-- `SuffixTree::new`. -/
def SuffixTree.new {E V : Type} : SuffixTree E V := .node [] none

/-- `SuffixTree::is_terminal`. -/
def SuffixTree.is_terminal {E V : Type} (t : SuffixTree E V) : Bool :=
  t.value.isSome

/-- `SuffixTree::insert`: walk from the root along `el`, creating a child for
each symbol not yet present, and at the end set (overwrite) the value of the
final node. The unsafe raw-pointer walk of the source is embedded as a pure
recursive rebuild with the same observable result. -/
def SuffixTree.insert {E V : Type} [DecidableEq E] :
    SuffixTree E V → List E → V → SuffixTree E V
  | .node sfx _, [], v => .node sfx (some v)
  | .node sfx w, e :: rest, v =>
    let child : SuffixTree E V :=
      match lookupA sfx e with
      | some c => c
      | none => SuffixTree.new
    .node (updateA sfx e (SuffixTree.insert child rest v)) w

/-- `Cursor<'a, E, V>`: a reference to a trie node plus the path of symbols
consumed to reach it. -/
structure Cursor (E V : Type) where
  cursor : SuffixTree E V
  path : List E

/-- `Cursor::new`. -/
def Cursor.new {E V : Type} (t : SuffixTree E V) : Cursor E V := ⟨t, []⟩

/-- `Cursor::go`: step to the child reached by `el` if that edge exists,
pushing `el` onto the path. -/
def Cursor.go {E V : Type} [DecidableEq E] (c : Cursor E V) (el : E) :
    Option (Cursor E V) :=
  match lookupA c.cursor.suffixes el with
  | some next => some ⟨next, c.path ++ [el]⟩
  | none => none

/-- `Cursor::get`. -/
def Cursor.get {E V : Type} (c : Cursor E V) : SuffixTree E V := c.cursor

/-- `Candidate<'a, V>` (src/main.rs lines 23-27): a live cursor tagged with
its start offset. (The vestigial `term_type_downgraded = false` fragments in
`find_matches` refer to no declared field and are dead; the declared struct
has exactly these two fields.) -/
structure Candidate (V : Type) where
  cursor : Cursor Char V
  start : Nat

/-- `Match<'a, V>` (src/main.rs lines 126-131). The source field `end` is a
Lean keyword and is embedded as `stop`. -/
structure Match (V : Type) where
  start : Nat
  stop : Nat
  seq : List Char
  node : SuffixTree Char V

/-- One iteration of the `find_matches` loop body acting on the candidate
vector: push a fresh root candidate for the current offset, then advance every
candidate by the current symbol, dropping the ones that fail. -/
def stepCands {V : Type} (dict : SuffixTree Char V) (cands : List (Candidate V))
    (offset : Nat) (ch : Char) : List (Candidate V) :=
  (cands ++ [({ cursor := Cursor.new dict, start := offset } : Candidate V)]).filterMap
    (fun (cand : Candidate V) =>
      (cand.cursor.go ch).map
        (fun next => ({ cursor := next, start := cand.start } : Candidate V)))

/-- The match-collection part of the `find_matches` loop body: every candidate
whose cursor now sits on a terminal node emits a `Match`. -/
def emitMatches {V : Type} (cands : List (Candidate V)) (offset : Nat) :
    List (Match V) :=
  (cands.filter (fun cand => cand.cursor.get.is_terminal)).map
    (fun cand => ⟨cand.start, 1 + offset, cand.cursor.path, cand.cursor.get⟩)

/-- The loop of `find_matches`, recursing over the remaining input with the
current candidate vector and offset; emitted matches accumulate in order. -/
def find_matches_go {V : Type} (dict : SuffixTree Char V)
    (cands : List (Candidate V)) (offset : Nat) : List Char → List (Match V)
  | [] => []
  | ch :: rest =>
    let next := stepCands dict cands offset ch
    emitMatches next offset ++ find_matches_go dict next (offset + 1) rest

/-- `find_matches` (src/main.rs lines 133-163). -/
def find_matches {V : Type} (dict : SuffixTree Char V) (input : List Char) :
    List (Match V) :=
  find_matches_go dict [] 0 input

/-- `is_punctuation` (src/main.rs lines 30-33): membership in the fixed
punctuation set. -/
def is_punctuation (ch : Char) : Bool :=
  ['/', '|', '-', '.', '\\', ':', ',', ';', '+', '(', ')'].contains ch

/-- Uppercase-to-lowercase table for the ASCII range. -/
def lowerTable : List (Char × Char) :=
  [('A', 'a'), ('B', 'b'), ('C', 'c'), ('D', 'd'), ('E', 'e'), ('F', 'f'),
   ('G', 'g'), ('H', 'h'), ('I', 'i'), ('J', 'j'), ('K', 'k'), ('L', 'l'),
   ('M', 'm'), ('N', 'n'), ('O', 'o'), ('P', 'p'), ('Q', 'q'), ('R', 'r'),
   ('S', 's'), ('T', 't'), ('U', 'u'), ('V', 'v'), ('W', 'w'), ('X', 'x'),
   ('Y', 'y'), ('Z', 'z')]

/-- Models the Rust standard library's `char::to_lowercase`, which yields a
sequence of characters: the embedding covers the ASCII range together with
U+0130 (LATIN CAPITAL LETTER I WITH DOT ABOVE), the canonical character whose
lowercase mapping is one-to-many (`'İ'.to_lowercase()` yields `i` followed by
U+0307 COMBINING DOT ABOVE); every other character is mapped to itself. -/
def to_lowercase (c : Char) : List Char :=
  match lookupA lowerTable c with
  | some d => [d]
  | none => if c = 'İ' then ['i', '̇'] else [c]

/-- `normalize` (src/main.rs lines 45-50): map punctuation to `'.'`, then
flat-map each character through `to_lowercase`. -/
def normalize (s : List Char) : List Char :=
  (s.map (fun ch => if is_punctuation ch then '.' else ch)).flatMap to_lowercase

/-- `TermType` (src/main.rs lines 35-38). -/
inductive TermType : Type where
  | Exact
  | Fuzzy
  | WholeWord
  | FuzzyWholeWord
  | WholeWordWithSymbols
  deriving DecidableEq, Repr

/-- `STree` (src/main.rs line 40). -/
abbrev STree : Type := SuffixTree Char (TermType × String)

/-- The sentinel wrapping applied by `main` to every scanned line:
`Some(' ').into_iter().chain(line).chain(Some(' ').into_iter())`. -/
def sentinelWrap (line : List Char) : List Char := ' ' :: line ++ [' ']

/-- The dictionary insertions `main` performs for one parsed entry
(src/main.rs lines 65-85): `lbl` is `parts[0]` (the printed label), `t` is
`parts[1].chars()` (the matched text). -/
def insertEntry (name_only fuzzy : Bool) (dict : STree) (lbl : String)
    (t : List Char) : STree :=
  if name_only then
    let d1 := dict.insert (' ' :: t ++ [' ']) (TermType.WholeWord, lbl)
    if fuzzy then
      d1.insert (' ' :: normalize t ++ [' ']) (TermType.FuzzyWholeWord, lbl)
    else d1
  else
    let d1 := dict.insert t (TermType.Exact, lbl)
    if fuzzy then d1.insert (normalize t) (TermType.Fuzzy, lbl)
    else d1

/-- The dictionary built by `main` from a list of already-parsed
`(label, key)` entries. -/
def buildDict (name_only fuzzy : Bool) (entries : List (String × List Char)) :
    STree :=
  entries.foldl (fun d e => insertEntry name_only fuzzy d e.1 e.2) SuffixTree.new

/-- `trim_right_matches('\n')`: strip every trailing newline. -/
def trimNewlines (l : List Char) : List Char :=
  (l.reverse.dropWhile (fun c => c = '\n')).reverse

/-- `str::splitn(1, sep)` under the pre-1.0 Rust semantics the source is
written against: split at most once, at the first occurrence of `sep`,
yielding one or two pieces. -/
def splitn1 (sep : Char) : List Char → List (List Char)
  | [] => [[]]
  | c :: rest =>
    if c = sep then [[], rest]
    else
      match splitn1 sep rest with
      | [] => [[c]]
      | p :: ps => (c :: p) :: ps

/-- Parsing of one dictionary line (src/main.rs lines 62-64 and the
`match parts.len()` at 64-87): trim trailing newlines, split at the first tab;
only lines with exactly two pieces produce an entry, `parts[0]` becoming the
label and `parts[1]` the matched key. -/
def parseDictLine (l : List Char) : Option (String × List Char) :=
  match splitn1 '\t' (trimNewlines l) with
  | [a, b] => some (String.mk a, b)
  | _ => none

/-- The dictionary built by `main` from the raw lines of the dictionary file
(src/main.rs lines 60-88). -/
def readDict (name_only fuzzy : Bool) (lines : List (List Char)) : STree :=
  lines.foldl
    (fun d l =>
      match parseDictLine l with
      | some e => insertEntry name_only fuzzy d e.1 e.2
      | none => d)
    SuffixTree.new

/-- The fields printed for one match (src/main.rs lines 105-106 and 119-120). -/
structure OutRecord : Type where
  start : Nat
  stop : Nat
  seq : List Char
  strict : Bool
  value : Option (TermType × String)
  deriving DecidableEq, Repr

/-- One printed output record (src/main.rs lines 102-107 and 116-121):
`m.start - 1`, `m.end - 1`, the matched text, the pass's strictness flag, and
the terminal value of the matched node. The subtraction is the Rust `usize`
subtraction; it is embedded as truncated `Nat` subtraction, which agrees with
it exactly when `m.start ≥ 1` and `m.stop ≥ 1` (claim C10 concerns whether the
underflowing case is reachable). The unwrap of `m.node.value` is kept as the
`Option` itself (claim C9 concerns whether it can be `none`). -/
def outputRecord (strict : Bool) (m : Match (TermType × String)) : OutRecord :=
  ⟨m.start - 1, m.stop - 1, m.seq, strict, m.node.value⟩

/-- `main`'s processing of one input line (src/main.rs lines 93-122): trim
trailing newlines, scan the sentinel-wrapped raw line (strict pass, printed
with flag `true`), then scan the sentinel-wrapped normalized line (printed
with flag `false`). Both passes run unconditionally. -/
def processLine (dict : STree) (rawLine : List Char) : List OutRecord :=
  let line := trimNewlines rawLine
  (find_matches dict (sentinelWrap line)).map (outputRecord true) ++
    (find_matches dict (sentinelWrap (normalize line))).map (outputRecord false)

/-- Observation: the data of a `Match` apart from the embedded node reference,
together with the node's terminal value. -/
def matchData {V : Type} (m : Match V) : Nat × Nat × List Char × Option V :=
  (m.start, m.stop, m.seq, m.node.value)

/-- Observation: walk the trie along a path of symbols. -/
def findNode {E V : Type} [DecidableEq E] :
    SuffixTree E V → List E → Option (SuffixTree E V)
  | t, [] => some t
  | t, e :: rest =>
    match lookupA t.suffixes e with
    | some child => findNode child rest
    | none => none

/-- Observation: the path `p` leads to a terminal node of `t`. -/
def isTerminalAt {E V : Type} [DecidableEq E] (t : SuffixTree E V)
    (p : List E) : Bool :=
  match findNode t p with
  | some n => n.is_terminal
  | none => false

/-- The trie paths `main` inserts for one dictionary entry with key `t`,
in insertion order (src/main.rs lines 65-85). -/
def entryPaths (name_only fuzzy : Bool) (t : List Char) : List (List Char) :=
  if name_only then
    (' ' :: t ++ [' ']) ::
      (if fuzzy then [' ' :: normalize t ++ [' ']] else [])
  else
    t :: (if fuzzy then [normalize t] else [])

/-- The action of `normalize` on a single character: punctuation collapses to
`'.'`, then the character is expanded through `to_lowercase`. -/
def normStep (ch : Char) : List Char :=
  to_lowercase (if is_punctuation ch then '.' else ch)

/-- The candidate vector `find_matches` holds after consuming the first `n`
symbols of `input`: one live candidate for every start offset `s < n` such
that the slice `input[s..n]` is a path of the trie, in ascending order of
start offset (which is also spawn order). -/
def candsAt {V : Type} (dict : SuffixTree Char V) (input : List Char)
    (n : Nat) : List (Candidate V) :=
  (List.range n).filterMap (fun s =>
    match findNode dict ((input.drop s).take (n - s)) with
    | some nd =>
      some ({ cursor := ⟨nd, (input.drop s).take (n - s)⟩, start := s } :
        Candidate V)
    | none => none)

/-- Closed form of `find_matches`: the matches emitted while consuming symbol
`off`, concatenated over all offsets. -/
def matchesClosed {V : Type} (dict : SuffixTree Char V) (input : List Char) :
    List (Match V) :=
  (List.range input.length).flatMap
    (fun off => emitMatches (candsAt dict input (off + 1)) off)

/-- Placeholder match, used only as the default value of list indexing in
claim statements. -/
def defaultMatch {V : Type} : Match V := ⟨0, 0, [], SuffixTree.new⟩

/-! ### Association list and trie lemmas -/

theorem lookupA_updateA {α β : Type} [DecidableEq α] (l : List (α × β))
    (k k2 : α) (v : β) :
    lookupA (updateA l k v) k2 = if k2 = k then some v else lookupA l k2 := by
  induction l with
  | nil =>
    simp only [updateA, lookupA]
  | cons hd tl ih =>
    obtain ⟨k1, w⟩ := hd
    simp only [updateA]
    by_cases h1 : k = k1
    · subst h1
      simp only [if_pos rfl]
      by_cases h2 : k2 = k <;> simp [lookupA, h2]
    · simp only [if_neg h1]
      by_cases h2 : k2 = k1
      · subst h2
        have h3 : ¬ k2 = k := fun h => h1 h.symm
        simp [lookupA, h3]
      · simp only [lookupA, if_neg h2, ih]

theorem lookupA_mem {α β : Type} [DecidableEq α] {l : List (α × β)} {k : α}
    {v : β} (h : lookupA l k = some v) : (k, v) ∈ l := by
  induction l with
  | nil => simp [lookupA] at h
  | cons hd tl ih =>
    obtain ⟨k1, w⟩ := hd
    by_cases h1 : k = k1
    · subst h1
      simp [lookupA] at h
      simp [h]
    · simp [lookupA, h1] at h
      exact List.mem_cons_of_mem _ (ih h)

theorem findNode_append_one {E V : Type} [DecidableEq E] (t : SuffixTree E V)
    (p : List E) (c : E) :
    findNode t (p ++ [c]) = (findNode t p).bind (fun n => lookupA n.suffixes c) := by
  induction p generalizing t with
  | nil =>
    cases h : lookupA t.suffixes c <;> simp [findNode, h]
  | cons e rest ih =>
    cases h : lookupA t.suffixes e <;> simp [findNode, h, ih]

theorem findNode_new {E V : Type} [DecidableEq E] (q : List E) (n : SuffixTree E V)
    (h : findNode SuffixTree.new q = some n) : q = [] ∧ n = SuffixTree.new := by
  cases q with
  | nil => simpa [findNode] using h.symm
  | cons b q2 => simp [findNode, SuffixTree.new, SuffixTree.suffixes, lookupA] at h

theorem isTerminalAt_new {E V : Type} [DecidableEq E] (q : List E) :
    isTerminalAt (SuffixTree.new : SuffixTree E V) q = false := by
  cases q with
  | nil => simp [isTerminalAt, findNode, SuffixTree.new, SuffixTree.is_terminal,
      SuffixTree.value]
  | cons b q2 =>
    simp [isTerminalAt, findNode, SuffixTree.new, SuffixTree.suffixes, lookupA]

theorem isTerminalAt_cons {E V : Type} [DecidableEq E]
    (sfx : List (E × SuffixTree E V)) (w : Option V) (b : E) (q : List E) :
    isTerminalAt (SuffixTree.node sfx w) (b :: q) =
      (match lookupA sfx b with
        | some child => isTerminalAt child q
        | none => false) := by
  cases hl : lookupA sfx b <;>
    simp [isTerminalAt, findNode, SuffixTree.suffixes, hl]

theorem insert_cons_eq {E V : Type} [DecidableEq E]
    (sfx : List (E × SuffixTree E V)) (w : Option V) (a : E) (p : List E) (v : V) :
    (SuffixTree.node sfx w).insert (a :: p) v =
      SuffixTree.node
        (updateA sfx a
          ((match lookupA sfx a with
            | some c => c
            | none => SuffixTree.new).insert p v)) w := rfl

theorem isTerminalAt_insert {E V : Type} [DecidableEq E] (t : SuffixTree E V)
    (p : List E) (v : V) (q : List E) :
    isTerminalAt (t.insert p v) q = true ↔ q = p ∨ isTerminalAt t q = true := by
  induction p generalizing q t with
  | nil =>
    obtain ⟨sfx, w⟩ := t
    cases q with
    | nil =>
      simp [isTerminalAt, findNode, SuffixTree.insert, SuffixTree.is_terminal,
        SuffixTree.value]
    | cons b q2 =>
      have h0 : (SuffixTree.node sfx w).insert [] v =
          SuffixTree.node sfx (some v) := rfl
      rw [h0, isTerminalAt_cons, isTerminalAt_cons]
      cases hl : lookupA sfx b <;> simp
  | cons a p2 ih =>
    obtain ⟨sfx, w⟩ := t
    cases q with
    | nil =>
      rw [insert_cons_eq]
      simp [isTerminalAt, findNode, SuffixTree.is_terminal, SuffixTree.value]
    | cons b q2 =>
      rw [insert_cons_eq, isTerminalAt_cons, isTerminalAt_cons, lookupA_updateA]
      by_cases hba : b = a
      · subst hba
        simp only [if_pos rfl]
        cases hl : lookupA sfx b with
        | none =>
          simp [ih, isTerminalAt_new]
        | some c =>
          simp [ih]
      · have hne : ¬ (b :: q2) = (a :: p2) := by
          intro h
          injection h with h1 _
          exact hba h1
        simp only [if_neg hba, hne, false_or]

theorem findNode_insert_self {E V : Type} [DecidableEq E] (t : SuffixTree E V)
    (p : List E) (v : V) :
    (findNode (t.insert p v) p).bind SuffixTree.value = some v := by
  induction p generalizing t with
  | nil =>
    obtain ⟨sfx, w⟩ := t
    simp [findNode, SuffixTree.insert, SuffixTree.value]
  | cons a p2 ih =>
    obtain ⟨sfx, w⟩ := t
    cases hl : lookupA sfx a <;>
      simp [findNode, SuffixTree.insert, SuffixTree.suffixes, hl,
        lookupA_updateA, ih]

theorem findNode_insert_isSome {E V : Type} [DecidableEq E] (t : SuffixTree E V)
    (p : List E) (v : V) (q : List E) (hq : q <+: p) :
    (findNode (t.insert p v) q).isSome = true := by
  induction p generalizing q t with
  | nil =>
    obtain ⟨sfx, w⟩ := t
    rw [List.prefix_nil] at hq
    subst hq
    simp [findNode]
  | cons a p2 ih =>
    obtain ⟨sfx, w⟩ := t
    cases q with
    | nil => simp [findNode]
    | cons b q2 =>
      obtain ⟨hb, hq2⟩ : b = a ∧ q2 <+: p2 := by
        rcases hq with ⟨r, hr⟩
        injection hr with h1 h2
        exact ⟨h1, ⟨r, h2⟩⟩
      subst hb
      cases hl : lookupA sfx b <;>
        simp [findNode, SuffixTree.insert, SuffixTree.suffixes, hl,
          lookupA_updateA, ih _ _ hq2]

/-! ### Dictionary construction lemmas -/

theorem isTerminalAt_insertEntry (no fz : Bool) (d : STree) (lbl : String)
    (t : List Char) (p : List Char) :
    isTerminalAt (insertEntry no fz d lbl t) p = true ↔
      p ∈ entryPaths no fz t ∨ isTerminalAt d p = true := by
  cases no <;> cases fz <;>
    simp [insertEntry, entryPaths, isTerminalAt_insert] <;> tauto

theorem isTerminalAt_foldl_insertEntry (no fz : Bool) (p : List Char) :
    ∀ (es : List (String × List Char)) (d : STree),
      isTerminalAt (es.foldl (fun d e => insertEntry no fz d e.1 e.2) d) p = true ↔
        (∃ e ∈ es, p ∈ entryPaths no fz e.2) ∨ isTerminalAt d p = true := by
  intro es
  induction es with
  | nil => simp
  | cons e rest ih =>
    intro d
    simp only [List.foldl_cons, ih, isTerminalAt_insertEntry, List.mem_cons]
    constructor
    · rintro (h | h | h)
      · exact Or.inl ⟨h.choose, Or.inr h.choose_spec.1, h.choose_spec.2⟩
      · exact Or.inl ⟨e, Or.inl rfl, h⟩
      · exact Or.inr h
    · rintro (⟨e2, he2 | he2, hp⟩ | h)
      · exact Or.inr (Or.inl (he2 ▸ hp))
      · exact Or.inl ⟨e2, he2, hp⟩
      · exact Or.inr (Or.inr h)

theorem isTerminalAt_buildDict (no fz : Bool)
    (entries : List (String × List Char)) (p : List Char) :
    isTerminalAt (buildDict no fz entries) p = true ↔
      ∃ e ∈ entries, p ∈ entryPaths no fz e.2 := by
  rw [buildDict, isTerminalAt_foldl_insertEntry, isTerminalAt_new]
  simp

/-! ### Normalization lemmas -/

theorem normalize_nil : normalize [] = [] := rfl

theorem normalize_cons (c : Char) (rest : List Char) :
    normalize (c :: rest) = normStep c ++ normalize rest := rfl

theorem normalize_append (a b : List Char) :
    normalize (a ++ b) = normalize a ++ normalize b := by
  induction a with
  | nil => simp [normalize_nil]
  | cons c rest ih => simp [normalize_cons, ih]

theorem lowerTable_fix : ∀ p ∈ lowerTable, normStep p.2 = [p.2] := by decide

theorem lowerTable_snd_ne_space : ∀ p ∈ lowerTable, p.2 ≠ ' ' := by decide

theorem normStep_fix (c : Char) : ∀ d ∈ normStep c, normStep d = [d] := by
  intro d hd
  by_cases hp : is_punctuation c = true
  · have h1 : normStep c = ['.'] := by
      simp only [normStep, if_pos hp]
      decide
    rw [h1] at hd
    simp at hd
    subst hd
    decide
  · have h1 : normStep c = to_lowercase c := by
      simp [normStep, hp]
    rw [h1] at hd
    cases hl : lookupA lowerTable c with
    | some d0 =>
      rw [to_lowercase, hl] at hd
      simp at hd
      subst hd
      exact lowerTable_fix _ (lookupA_mem hl)
    | none =>
      by_cases hi : c = 'İ'
      · rw [to_lowercase, hl, if_pos hi] at hd
        simp at hd
        rcases hd with hd | hd <;> subst hd <;> decide
      · rw [to_lowercase, hl, if_neg hi] at hd
        simp at hd
        rw [hd, normStep, if_neg (by simpa using hp), to_lowercase, hl, if_neg hi]

theorem flatMap_fix {α : Type} (f : α → List α) :
    ∀ l : List α, (∀ x ∈ l, f x = [x]) → l.flatMap f = l := by
  intro l
  induction l with
  | nil => simp
  | cons x rest ih =>
    intro h
    rw [List.flatMap_cons, h x (List.mem_cons_self x rest),
      ih (fun y hy => h y (List.mem_cons_of_mem x hy))]
    rfl

theorem normalize_eq_flatMap (s : List Char) : normalize s = s.flatMap normStep := by
  induction s with
  | nil => rfl
  | cons c rest ih => rw [normalize_cons, List.flatMap_cons, ih]

theorem normalize_normStep (c : Char) : normalize (normStep c) = normStep c := by
  rw [normalize_eq_flatMap]
  exact flatMap_fix _ _ (normStep_fix c)

theorem normalize_idem (s : List Char) : normalize (normalize s) = normalize s := by
  induction s with
  | nil => rfl
  | cons c rest ih =>
    rw [normalize_cons, normalize_append, normalize_normStep, ih]

theorem to_lowercase_ne_nil (c : Char) : to_lowercase c ≠ [] := by
  rw [to_lowercase]
  cases hl : lookupA lowerTable c
  · by_cases hi : c = 'İ' <;> simp [hi]
  · simp

theorem normStep_ne_nil (c : Char) : normStep c ≠ [] := to_lowercase_ne_nil _

theorem normalize_ne_nil {s : List Char} (h : s ≠ []) : normalize s ≠ [] := by
  cases s with
  | nil => exact absurd rfl h
  | cons c rest =>
    rw [normalize_cons]
    intro hc
    exact normStep_ne_nil c (List.append_eq_nil.mp hc).1

theorem space_notin_normStep {c : Char} (h : c ≠ ' ') : ' ' ∉ normStep c := by
  intro hd
  by_cases hp : is_punctuation c = true
  · have h1 : normStep c = ['.'] := by
      simp only [normStep, if_pos hp]
      decide
    rw [h1] at hd
    simp at hd
  · have h1 : normStep c = to_lowercase c := by simp [normStep, hp]
    rw [h1] at hd
    cases hl : lookupA lowerTable c with
    | some d0 =>
      rw [to_lowercase, hl] at hd
      simp at hd
      exact lowerTable_snd_ne_space _ (lookupA_mem hl) hd.symm
    | none =>
      by_cases hi : c = 'İ'
      · rw [to_lowercase, hl, if_pos hi] at hd
        simp at hd
      · rw [to_lowercase, hl, if_neg hi] at hd
        simp at hd
        exact h hd.symm

theorem normStep_space : normStep ' ' = [' '] := by decide

theorem normalize_sentinelWrap (l : List Char) :
    normalize (sentinelWrap l) = sentinelWrap (normalize l) := by
  have h1 : normalize [' '] = [' '] := by decide
  simp [sentinelWrap, normalize_cons, normalize_append, h1, normStep_space]

/-! ### Characterization of the cursor-set scan -/

theorem filterMap_congr_mem {α β : Type} {f g : α → Option β} :
    ∀ l : List α, (∀ a ∈ l, f a = g a) → l.filterMap f = l.filterMap g := by
  intro l
  induction l with
  | nil => intro _; rfl
  | cons a rest ih =>
    intro h
    rw [List.filterMap_cons, List.filterMap_cons, h a (List.mem_cons_self a rest),
      ih (fun b hb => h b (List.mem_cons_of_mem a hb))]

theorem slice_succ {input : List Char} {s n : Nat} {ch : Char} (hs : s ≤ n)
    (hn : n < input.length) (hch : input.get ⟨n, hn⟩ = ch) :
    (input.drop s).take (n + 1 - s) = (input.drop s).take (n - s) ++ [ch] := by
  have h1 : n + 1 - s = (n - s) + 1 := by omega
  rw [h1, List.take_succ]
  have h2 : (input.drop s)[n - s]? = input[s + (n - s)]? := List.getElem?_drop ..
  have h3 : s + (n - s) = n := by omega
  rw [h3] at h2
  have h4 : input[n]? = some ch := by
    rw [List.getElem?_eq_getElem hn]
    exact congrArg some hch
  rw [h2, h4]
  rfl

theorem stepCands_candsAt {V : Type} (dict : SuffixTree Char V)
    (input : List Char) (n : Nat) (hn : n < input.length) :
    stepCands dict (candsAt dict input n) n (input.get ⟨n, hn⟩) =
      candsAt dict input (n + 1) := by
  set ch := input.get ⟨n, hn⟩ with hch
  rw [stepCands, List.filterMap_append, candsAt, List.filterMap_filterMap]
  conv_rhs => rw [candsAt, List.range_succ, List.filterMap_append]
  refine congrArg₂ (· ++ ·) ?left ?right
  case left =>
    apply filterMap_congr_mem
    intro s hs
    have hsn : s < n := List.mem_range.mp hs
    have hslice : (input.drop s).take (n + 1 - s) =
        (input.drop s).take (n - s) ++ [ch] :=
      slice_succ (Nat.le_of_lt hsn) hn hch.symm
    cases hfq : findNode dict ((input.drop s).take (n - s)) with
    | none =>
      have hfq2 : findNode dict ((input.drop s).take (n + 1 - s)) = none := by
        rw [hslice, findNode_append_one, hfq]
        rfl
      simp [hfq, hfq2]
    | some nd =>
      cases hlk : lookupA nd.suffixes ch with
      | none =>
        have hfq2 : findNode dict ((input.drop s).take (n + 1 - s)) = none := by
          rw [hslice, findNode_append_one, hfq]
          simpa using hlk
        simp [hfq, hfq2, Cursor.go, hlk]
      | some next =>
        have hfq2 : findNode dict ((input.drop s).take (n + 1 - s)) = some next := by
          rw [hslice, findNode_append_one, hfq]
          simpa using hlk
        simp only [Option.bind_some]
        rw [hfq2]
        simp [Cursor.go, hlk, hslice]
  case right =>
    have hn1 : n + 1 - n = 1 := by omega
    have hslice : (input.drop n).take 1 = [ch] := by
      rw [List.drop_eq_getElem_cons hn]
      rfl
    rw [List.filterMap_cons, List.filterMap_cons]
    cases hlk : lookupA dict.suffixes ch with
    | none =>
      have hfq : findNode dict ((input.drop n).take 1) = none := by
        rw [hslice, findNode, hlk]
      simp [Cursor.go, Cursor.new, hlk, hn1, hfq]
    | some next =>
      have hfq : findNode dict [ch] = some next := by
        rw [findNode, hlk]
        rfl
      simp [Cursor.go, Cursor.new, hlk, hn1, hslice, hfq]

theorem find_matches_go_candsAt {V : Type} (dict : SuffixTree Char V)
    (input : List Char) :
    ∀ (rem : List Char) (n : Nat), rem = input.drop n →
      n + rem.length = input.length →
      find_matches_go dict (candsAt dict input n) n rem =
        (List.range' n rem.length).flatMap
          (fun off => emitMatches (candsAt dict input (off + 1)) off) := by
  intro rem
  induction rem with
  | nil =>
    intro n _ _
    rfl
  | cons ch rest ih =>
    intro n hdrop hlen
    have hn : n < input.length := by
      simp at hlen
      omega
    have hcons : ch :: rest = input.get ⟨n, hn⟩ :: input.drop (n + 1) := by
      rw [hdrop, List.drop_eq_getElem_cons hn]
      rfl
    have hch : input.get ⟨n, hn⟩ = ch := by
      injection hcons with h1 _
      exact h1.symm
    have hrest : rest = input.drop (n + 1) := by
      injection hcons with _ h2
    have hstep : stepCands dict (candsAt dict input n) n ch =
        candsAt dict input (n + 1) := by
      rw [← hch]
      exact stepCands_candsAt dict input n hn
    show emitMatches (stepCands dict (candsAt dict input n) n ch) n ++
        find_matches_go dict (stepCands dict (candsAt dict input n) n ch)
          (n + 1) rest = _
    rw [hstep, ih (n + 1) hrest (by simp at hlen ⊢; omega)]
    have hr : List.range' n (rest.length + 1) = n :: List.range' (n + 1) rest.length :=
      rfl
    rw [List.length_cons, hr, List.flatMap_cons]

theorem find_matches_eq_matchesClosed {V : Type} (dict : SuffixTree Char V)
    (input : List Char) :
    find_matches dict input = matchesClosed dict input := by
  have h0 : candsAt dict input 0 = [] := rfl
  have h1 := find_matches_go_candsAt dict input input 0 rfl (by simp)
  rw [h0] at h1
  rw [find_matches, h1, matchesClosed, List.range_eq_range']

theorem mem_find_matches_sound {V : Type} {dict : SuffixTree Char V}
    {input : List Char} {m : Match V} (h : m ∈ find_matches dict input) :
    m.start < m.stop ∧ m.stop ≤ input.length ∧
      m.seq = (input.drop m.start).take (m.stop - m.start) ∧
      findNode dict m.seq = some m.node ∧ m.node.is_terminal = true := by
  rw [find_matches_eq_matchesClosed, matchesClosed, List.mem_flatMap] at h
  obtain ⟨off, hoff, hm⟩ := h
  rw [List.mem_range] at hoff
  rw [emitMatches, List.mem_map] at hm
  obtain ⟨cand, hcand, hmk⟩ := hm
  rw [List.mem_filter] at hcand
  obtain ⟨hcand, hterm⟩ := hcand
  rw [candsAt, List.mem_filterMap] at hcand
  obtain ⟨s, hs, hf⟩ := hcand
  rw [List.mem_range] at hs
  cases hfind : findNode dict ((input.drop s).take (off + 1 - s)) with
  | none =>
    rw [hfind] at hf
    cases hf
  | some nd =>
    rw [hfind] at hf
    injection hf with hf
    subst hf
    subst hmk
    have hms : 1 + off - s = off + 1 - s := by omega
    refine ⟨?_, ?_, ?_, ?_, ?_⟩
    · show s < 1 + off
      omega
    · show 1 + off ≤ input.length
      omega
    · show (input.drop s).take (off + 1 - s) =
        (input.drop s).take (1 + off - s)
      rw [hms]
    · exact hfind
    · simpa [Cursor.get] using hterm

theorem find_matches_complete {V : Type} (dict : SuffixTree Char V)
    (input : List Char) (s : Nat) (q : List Char) (nd : SuffixTree Char V)
    (hq : q ≠ []) (hslice : (input.drop s).take q.length = q)
    (hfind : findNode dict q = some nd) (hterm : nd.is_terminal = true) :
    (⟨s, s + q.length, q, nd⟩ : Match V) ∈ find_matches dict input := by
  have hlq : 1 ≤ q.length := by
    cases q with
    | nil => exact absurd rfl hq
    | cons a r => simp
  have hsle : s ≤ input.length := by
    by_contra hs2
    have hd : input.drop s = [] := by
      apply List.drop_eq_nil_of_le
      omega
    rw [hd, List.take_nil] at hslice
    exact hq hslice.symm
  have hql : q.length ≤ input.length - s := by
    have := congrArg List.length hslice
    simp [List.length_take, List.length_drop] at this
    omega
  have he : s + q.length ≤ input.length := by omega
  rw [find_matches_eq_matchesClosed, matchesClosed, List.mem_flatMap]
  refine ⟨s + q.length - 1, List.mem_range.mpr (by omega), ?_⟩
  have hoff1 : s + q.length - 1 + 1 = s + q.length := by omega
  rw [emitMatches, List.mem_map]
  refine ⟨({ cursor := ⟨nd, q⟩, start := s } : Candidate V), ?_, ?_⟩
  · rw [List.mem_filter]
    constructor
    · rw [candsAt, List.mem_filterMap]
      refine ⟨s, List.mem_range.mpr (by omega), ?_⟩
      rw [hoff1]
      have hms : s + q.length - s = q.length := by omega
      rw [hms, hslice, hfind]
    · simpa [Cursor.get] using hterm
  · show Match.mk _ (1 + (s + q.length - 1)) _ _ = _
    have h1 : 1 + (s + q.length - 1) = s + q.length := by omega
    rw [h1]
    rfl

/-! ### Ordering of the emitted matches -/

theorem pairwise_filterMap_of {α β : Type} {R : β → β → Prop} (f : α → Option β) :
    ∀ {l : List α}, l.Pairwise (fun a b => ∀ x ∈ f a, ∀ y ∈ f b, R x y) →
      (l.filterMap f).Pairwise R := by
  intro l
  induction l with
  | nil => intro _; simp
  | cons a rest ih =>
    intro h
    rw [List.pairwise_cons] at h
    obtain ⟨ha, hrest⟩ := h
    rw [List.filterMap_cons]
    cases hfa : f a with
    | none => exact ih hrest
    | some b =>
      rw [List.pairwise_cons]
      refine ⟨?_, ih hrest⟩
      intro y hy
      rw [List.mem_filterMap] at hy
      obtain ⟨a2, ha2, hfa2⟩ := hy
      exact ha a2 ha2 b (by rw [hfa]; exact Option.mem_def.mpr rfl)
        y (by rw [hfa2]; exact Option.mem_def.mpr rfl)

theorem start_of_candsAt {V : Type} {dict : SuffixTree Char V}
    {input : List Char} {n s : Nat} {c : Candidate V}
    (h : (match findNode dict ((input.drop s).take (n - s)) with
      | some nd =>
        some ({ cursor := ⟨nd, (input.drop s).take (n - s)⟩, start := s } :
          Candidate V)
      | none => none) = some c) : c.start = s := by
  cases hfind : findNode dict ((input.drop s).take (n - s)) with
  | none => rw [hfind] at h; cases h
  | some nd =>
    rw [hfind] at h
    injection h with h
    rw [← h]

theorem candsAt_pairwise {V : Type} (dict : SuffixTree Char V)
    (input : List Char) (n : Nat) :
    (candsAt dict input n).Pairwise (fun c1 c2 => c1.start < c2.start) := by
  rw [candsAt]
  apply pairwise_filterMap_of
  have hr : (List.range n).Pairwise (· < ·) := List.pairwise_lt_range n
  apply hr.imp_of_mem
  intro s1 s2 _ _ hlt x hx y hy
  rw [Option.mem_def] at hx hy
  rw [start_of_candsAt hx, start_of_candsAt hy]
  exact hlt

theorem stop_of_mem_emitMatches {V : Type} {cands : List (Candidate V)}
    {off : Nat} {m : Match V} (h : m ∈ emitMatches cands off) :
    m.stop = 1 + off := by
  rw [emitMatches, List.mem_map] at h
  obtain ⟨c, _, hmk⟩ := h
  rw [← hmk]

theorem pairwise_flatMap_of {α β : Type} {R : β → β → Prop} (g : α → List β) :
    ∀ l : List α, (∀ a ∈ l, (g a).Pairwise R) →
      l.Pairwise (fun a b => ∀ x ∈ g a, ∀ y ∈ g b, R x y) →
      (l.flatMap g).Pairwise R := by
  intro l
  induction l with
  | nil => intro _ _; simp
  | cons a rest ih =>
    intro hin hp
    rw [List.pairwise_cons] at hp
    obtain ⟨ha, hrest⟩ := hp
    rw [List.flatMap_cons, List.pairwise_append]
    refine ⟨hin a (List.mem_cons_self a rest), ih
      (fun b hb => hin b (List.mem_cons_of_mem a hb)) hrest, ?_⟩
    intro x hx y hy
    rw [List.mem_flatMap] at hy
    obtain ⟨b, hb, hyb⟩ := hy
    exact ha b hb x hx y hyb

theorem find_matches_pairwise {V : Type} (dict : SuffixTree Char V)
    (input : List Char) :
    (find_matches dict input).Pairwise
      (fun m1 m2 => m1.stop < m2.stop ∨
        (m1.stop = m2.stop ∧ m1.start < m2.start)) := by
  rw [find_matches_eq_matchesClosed, matchesClosed]
  apply pairwise_flatMap_of
  · intro off _
    rw [emitMatches, List.pairwise_map]
    exact ((candsAt_pairwise dict input (off + 1)).filter _).imp
      (fun h => Or.inr ⟨rfl, h⟩)
  · have hr : (List.range input.length).Pairwise (· < ·) :=
      List.pairwise_lt_range input.length
    apply hr.imp_of_mem
    intro o1 o2 _ _ hlt x hx y hy
    rw [stop_of_mem_emitMatches hx, stop_of_mem_emitMatches hy]
    exact Or.inl (by omega)

/-! ### Support lemmas for the claims -/

theorem isTerminalAt_of_findNode {E V : Type} [DecidableEq E]
    {t : SuffixTree E V} {p : List E} {nd : SuffixTree E V}
    (hfind : findNode t p = some nd) (hterm : nd.is_terminal = true) :
    isTerminalAt t p = true := by
  rw [isTerminalAt, hfind]
  exact hterm

theorem findNode_of_isTerminalAt {E V : Type} [DecidableEq E]
    {t : SuffixTree E V} {p : List E} (h : isTerminalAt t p = true) :
    ∃ nd, findNode t p = some nd ∧ nd.is_terminal = true := by
  rw [isTerminalAt] at h
  cases hfind : findNode t p with
  | none => rw [hfind] at h; cases h
  | some nd => rw [hfind] at h; exact ⟨nd, rfl, h⟩

theorem isTerminalAt_normalize {no : Bool}
    {entries : List (String × List Char)} {p : List Char}
    (h : isTerminalAt (buildDict no true entries) p = true) :
    isTerminalAt (buildDict no true entries) (normalize p) = true := by
  rw [isTerminalAt_buildDict] at h ⊢
  obtain ⟨e, he, hp⟩ := h
  refine ⟨e, he, ?_⟩
  cases no with
  | false =>
    have hPaths : entryPaths false true e.2 = [e.2, normalize e.2] := by
      simp [entryPaths]
    rw [hPaths] at hp ⊢
    rcases List.mem_cons.mp hp with hp | hp
    · rw [hp]
      exact List.mem_cons_of_mem _ (List.mem_singleton.mpr rfl)
    · rw [List.mem_singleton.mp hp, normalize_idem]
      exact List.mem_cons_of_mem _ (List.mem_singleton.mpr rfl)
  | true =>
    have hPaths : entryPaths true true e.2 =
        [' ' :: e.2 ++ [' '], ' ' :: normalize e.2 ++ [' ']] := by
      simp [entryPaths]
    rw [hPaths] at hp ⊢
    rcases List.mem_cons.mp hp with hp | hp
    · have h1 : normalize p = ' ' :: normalize e.2 ++ [' '] := by
        rw [hp]
        exact normalize_sentinelWrap e.2
      rw [h1]
      exact List.mem_cons_of_mem _ (List.mem_singleton.mpr rfl)
    · have h1 : normalize p = ' ' :: normalize e.2 ++ [' '] := by
        rw [List.mem_singleton.mp hp]
        have h2 : normalize (sentinelWrap (normalize e.2)) =
            sentinelWrap (normalize (normalize e.2)) := normalize_sentinelWrap _
        rw [normalize_idem] at h2
        exact h2
      rw [h1]
      exact List.mem_cons_of_mem _ (List.mem_singleton.mpr rfl)

theorem normalize_head_ne_space {key : List Char} (h : key.head? ≠ some ' ') :
    (normalize key).head? ≠ some ' ' := by
  cases key with
  | nil => simp [normalize_nil]
  | cons c r =>
    have hc : c ≠ ' ' := by
      intro hc2
      exact h (by rw [hc2]; rfl)
    rw [normalize_cons]
    cases hns : normStep c with
    | nil => exact absurd hns (normStep_ne_nil c)
    | cons d ds =>
      intro hd
      rw [List.cons_append, List.head?_cons, Option.some_inj] at hd
      apply space_notin_normStep hc
      rw [hns, hd]
      exact List.mem_cons_self _ _

theorem entryPaths_head_ne_space {fz : Bool} {key p : List Char}
    (hk : key.head? ≠ some ' ') (hp : p ∈ entryPaths false fz key) :
    p.head? ≠ some ' ' := by
  rw [entryPaths, if_neg Bool.false_ne_true] at hp
  cases fz with
  | false =>
    simp at hp
    rw [hp]
    exact hk
  | true =>
    simp at hp
    rcases hp with hp | hp
    · rw [hp]
      exact hk
    · rw [hp]
      exact normalize_head_ne_space hk

theorem forall_start_pos {fz : Bool} {entries : List (String × List Char)}
    (L1 : List Char) (hk : ∀ e ∈ entries, (e.2).head? ≠ some ' ') :
    List.Forall (fun m => 1 ≤ m.start ∧ 1 ≤ m.stop)
      (find_matches (buildDict false fz entries) (sentinelWrap L1)) := by
  rw [List.forall_iff_forall_mem]
  intro m hm
  obtain ⟨hlt, hle, hseq, hfind, hterm⟩ := mem_find_matches_sound hm
  refine ⟨?_, by omega⟩
  by_contra h0
  have hstart : m.start = 0 := by omega
  have hhead : m.seq.head? = some ' ' := by
    obtain ⟨k, hk2⟩ : ∃ k, m.stop = k + 1 := ⟨m.stop - 1, by omega⟩
    rw [hseq, hstart, List.drop_zero, Nat.sub_zero, hk2]
    rfl
  have hT : isTerminalAt (buildDict false fz entries) m.seq = true :=
    isTerminalAt_of_findNode hfind hterm
  rw [isTerminalAt_buildDict] at hT
  obtain ⟨e, he, hp⟩ := hT
  exact entryPaths_head_ne_space (hk e he) hp hhead

/-! ### Claim theorems -/

/-- C1: for every dictionary entry E (with whole-word mode off, where the raw
key is inserted as its own trie path; E non-empty, as guaranteed by dictionary
construction) and every line L containing E as a contiguous substring at
offset i, the strict pass — `find_matches` over the sentinel-wrapped raw line
— reports a match with start = i + 1 and end = i + 1 + len E, i.e. start = i
and end = i + len E in caller-visible coordinates (the printed values
start - 1 / end - 1). -/
theorem C1_no_false_negatives (fz : Bool)
    (entries : List (String × List Char)) (lbl : String) (E L : List Char)
    (i : Nat) (hmem : (lbl, E) ∈ entries) (hE : E ≠ [])
    (hocc : (L.drop i).take E.length = E) :
    ∃ m ∈ find_matches (buildDict false fz entries) (sentinelWrap L),
      m.start = i + 1 ∧ m.stop = i + 1 + E.length ∧ m.seq = E ∧
        m.start - 1 = i ∧ m.stop - 1 = i + E.length := by
  have hterm : isTerminalAt (buildDict false fz entries) E = true := by
    rw [isTerminalAt_buildDict]
    refine ⟨(lbl, E), hmem, ?_⟩
    rw [entryPaths]
    cases fz <;> simp
  obtain ⟨nd, hfind, hnd⟩ := findNode_of_isTerminalAt hterm
  have hiL : i ≤ L.length := by
    by_contra h2
    have hd : L.drop i = [] := List.drop_eq_nil_of_le (by omega)
    rw [hd, List.take_nil] at hocc
    exact hE hocc.symm
  have hEL : i + E.length ≤ L.length := by
    have hlen := congrArg List.length hocc
    simp [List.length_take, List.length_drop] at hlen
    omega
  have hws : ((sentinelWrap L).drop (i + 1)).take E.length = E := by
    show (((' ' : Char) :: (L ++ [' '])).drop (i + 1)).take E.length = E
    rw [List.drop_succ_cons, List.drop_append_of_le_length hiL,
      List.take_append_of_le_length (by simp [List.length_drop]; omega)]
    exact hocc
  have hcomp := find_matches_complete (buildDict false fz entries)
    (sentinelWrap L) (i + 1) E nd hE hws hfind hnd
  refine ⟨⟨i + 1, i + 1 + E.length, E, nd⟩, hcomp, rfl, rfl, rfl, ?_, ?_⟩
  · show i + 1 - 1 = i
    omega
  · show i + 1 + E.length - 1 = i + E.length
    omega

/-- Witness for C1: entry "ab" (label "l"), line "xab", occurrence at
offset 1. -/
theorem C1_witness :
    ∃ m ∈ find_matches (buildDict false false [("l", ['a', 'b'])])
        (sentinelWrap ['x', 'a', 'b']),
      m.start = 1 + 1 ∧ m.stop = 1 + 1 + (['a', 'b'] : List Char).length ∧
        m.seq = ['a', 'b'] ∧ m.start - 1 = 1 ∧
        m.stop - 1 = 1 + (['a', 'b'] : List Char).length :=
  C1_no_false_negatives false [("l", ['a', 'b'])] "l" ['a', 'b']
    ['x', 'a', 'b'] 1 (List.mem_singleton.mpr rfl) (by decide) (by decide)

/-- C2: with whole-word matching enabled and dictionary entry "cat", neither
scan pass of line "concatenate" produces any match (in particular no
WholeWord match for "cat"), while line "the cat sat" produces exactly one
match on each pass: the WholeWord match of the path " cat " spanning the word
"cat" together with its two boundary sentinels — positions [4,9) of the
wrapped line, printed as [3,8). -/
theorem C2_whole_word_boundary :
    (find_matches (buildDict true false [("lbl", ['c', 'a', 't'])])
        (sentinelWrap (String.toList "concatenate"))).map matchData = [] ∧
    (find_matches (buildDict true false [("lbl", ['c', 'a', 't'])])
        (sentinelWrap (normalize (String.toList "concatenate")))).map
      matchData = [] ∧
    (find_matches (buildDict true false [("lbl", ['c', 'a', 't'])])
        (sentinelWrap (String.toList "the cat sat"))).map matchData =
      [(4, 9, [' ', 'c', 'a', 't', ' '], some (TermType.WholeWord, "lbl"))] ∧
    (find_matches (buildDict true false [("lbl", ['c', 'a', 't'])])
        (sentinelWrap (normalize (String.toList "the cat sat")))).map
      matchData =
      [(4, 9, [' ', 'c', 'a', 't', ' '], some (TermType.WholeWord, "lbl"))] :=
  ⟨by decide, by decide, by decide, by decide⟩

/-- C3 counterexample: for the dictionary lines "john\tJohn Smith" and
"johnson\tJohnson Corp" with whole-word off and fuzzy off, the program's
output for line "ask johnson now" is NOT the single claimed record
"johnson" at [4,11) tagged Exact with label "Johnson Corp": the code matches
the second tab-separated field ("John Smith" / "Johnson Corp") and prints the
first field as the label, and neither key occurs in the line. -/
theorem C3_counterexample :
    processLine (readDict false false
        [String.toList "john\tJohn Smith",
          String.toList "johnson\tJohnson Corp"])
      (String.toList "ask johnson now") ≠
      [⟨4, 11, String.toList "johnson", true,
        some (TermType.Exact, "Johnson Corp")⟩] := by
  decide

/-- C3 amended: with whole-word off and fuzzy off, for the dictionary lines
"john\tJohn Smith" and "johnson\tJohnson Corp" and the input line
"ask johnson now", the program's output for that line is empty: the matched
text is the second tab-separated field of a dictionary line ("John Smith",
"Johnson Corp"), the first field is the printed label, and neither key occurs
in the line (on either the strict or the normalized pass). -/
theorem C3_concrete_scenario :
    processLine (readDict false false
        [String.toList "john\tJohn Smith",
          String.toList "johnson\tJohnson Corp"])
      (String.toList "ask johnson now") = [] := by
  decide

/-- C4: when fuzzy matching is enabled, every match of the strict pass (over
the sentinel-wrapped raw line) has a corresponding match on the fuzzy pass
(over the sentinel-wrapped normalized line): the latter matches exactly the
normalized image of the former's matched sequence, at the corresponding
(normalized-prefix) position. The matched fuzzy path is the normalization of
the strict path, which is always terminal in the same dictionary, so enabling
fuzzy matching never loses a match. -/
theorem C4_fuzzy_superset (no : Bool) (entries : List (String × List Char))
    (L : List Char) (j : Nat)
    (hj : j < (find_matches (buildDict no true entries)
      (sentinelWrap L)).length) :
    ∃ m2 ∈ find_matches (buildDict no true entries)
        (sentinelWrap (normalize L)),
      m2.seq = normalize ((find_matches (buildDict no true entries)
          (sentinelWrap L)).getD j defaultMatch).seq ∧
      m2.start = (normalize ((sentinelWrap L).take
          ((find_matches (buildDict no true entries)
            (sentinelWrap L)).getD j defaultMatch).start)).length ∧
      m2.stop = m2.start +
        (normalize ((find_matches (buildDict no true entries)
          (sentinelWrap L)).getD j defaultMatch).seq).length := by
  have hmem : (find_matches (buildDict no true entries)
      (sentinelWrap L)).getD j defaultMatch ∈
      find_matches (buildDict no true entries) (sentinelWrap L) := by
    rw [List.getD_eq_getElem _ _ hj]
    exact List.getElem_mem hj
  set m := (find_matches (buildDict no true entries)
    (sentinelWrap L)).getD j defaultMatch with hmdef
  obtain ⟨hlt, hle, hseq, hfind, hterm⟩ := mem_find_matches_sound hmem
  have hseqlen : m.seq.length = m.stop - m.start := by
    rw [hseq]
    simp [List.length_take, List.length_drop]
    omega
  have hqne : m.seq ≠ [] := by
    intro h2
    rw [h2] at hseqlen
    simp at hseqlen
    omega
  have hNterm : isTerminalAt (buildDict no true entries) (normalize m.seq) =
      true :=
    isTerminalAt_normalize (isTerminalAt_of_findNode hfind hterm)
  obtain ⟨nd2, hfind2, hnd2⟩ := findNode_of_isTerminalAt hNterm
  have hdecomp : sentinelWrap L =
      (sentinelWrap L).take m.start ++ m.seq ++ (sentinelWrap L).drop m.stop := by
    conv_lhs => rw [← List.take_append_drop m.start (sentinelWrap L)]
    rw [List.append_assoc]
    refine congrArg _ ?_
    rw [hseq]
    have h2 : (sentinelWrap L).drop m.stop =
        ((sentinelWrap L).drop m.start).drop (m.stop - m.start) := by
      rw [List.drop_drop]
      refine congrArg (fun k => (sentinelWrap L).drop k) ?_
      omega
    rw [h2, List.take_append_drop]
  have hNin : sentinelWrap (normalize L) =
      normalize ((sentinelWrap L).take m.start) ++
        (normalize m.seq ++ normalize ((sentinelWrap L).drop m.stop)) := by
    rw [← normalize_sentinelWrap]
    conv_lhs => rw [hdecomp]
    rw [normalize_append, normalize_append, List.append_assoc]
  have hslice2 : ((sentinelWrap (normalize L)).drop
      (normalize ((sentinelWrap L).take m.start)).length).take
        (normalize m.seq).length = normalize m.seq := by
    rw [hNin, List.drop_left, List.take_left]
  have hcomp := find_matches_complete (buildDict no true entries)
    (sentinelWrap (normalize L))
    (normalize ((sentinelWrap L).take m.start)).length (normalize m.seq) nd2
    (normalize_ne_nil hqne) hslice2 hfind2 hnd2
  exact ⟨_, hcomp, rfl, rfl, rfl⟩

/-- Witness for C4: entry "a" (label "l"), line "a", first strict match. -/
theorem C4_witness :
    ∃ m2 ∈ find_matches (buildDict false true [("l", ['a'])])
        (sentinelWrap (normalize ['a'])),
      m2.seq = normalize ((find_matches (buildDict false true [("l", ['a'])])
          (sentinelWrap ['a'])).getD 0 defaultMatch).seq ∧
      m2.start = (normalize ((sentinelWrap ['a']).take
          ((find_matches (buildDict false true [("l", ['a'])])
            (sentinelWrap ['a'])).getD 0 defaultMatch).start)).length ∧
      m2.stop = m2.start +
        (normalize ((find_matches (buildDict false true [("l", ['a'])])
          (sentinelWrap ['a'])).getD 0 defaultMatch).seq).length :=
  C4_fuzzy_superset false [("l", ['a'])] ['a'] 0 (by decide)

/-- C5: after `insert s v`, every prefix of `s` leads to a node (is reachable
from the root), and the node reached by the full sequence `s` is terminal and
carries exactly the value `v`, overwriting any value previously stored at
that path; `insert` is a total function, so insertion never fails. -/
theorem C5_insert_spec {E V : Type} [DecidableEq E] (t : SuffixTree E V)
    (s : List E) (v : V) (p : List E) (hp : p <+: s) :
    (findNode (t.insert s v) p).isSome = true ∧
      (findNode (t.insert s v) s).bind SuffixTree.value = some v :=
  ⟨findNode_insert_isSome t s v p hp, findNode_insert_self t s v⟩

/-- Witness for C5: inserting "ab" over an empty trie; the prefix "a" is
reachable and the full path carries the value. -/
theorem C5_witness :
    (findNode ((SuffixTree.new : SuffixTree Char Nat).insert ['a', 'b'] 7)
      ['a']).isSome = true ∧
      (findNode ((SuffixTree.new : SuffixTree Char Nat).insert ['a', 'b'] 7)
        ['a', 'b']).bind SuffixTree.value = some 7 :=
  C5_insert_spec SuffixTree.new ['a', 'b'] 7 ['a'] ⟨['b'], rfl⟩

/-- C6: the matches returned by one scan pass are emitted in an order that is
(strictly) increasing lexicographically in (end offset, start offset):
non-decreasing by end offset, and among matches with the same end offset,
ascending by start offset — which is the order their cursors were spawned,
since the cursor with the smaller start offset was pushed onto the candidate
vector at the earlier position. -/
theorem C6_emission_order {V : Type} (dict : SuffixTree Char V)
    (input : List Char) :
    (find_matches dict input).Pairwise
      (fun m1 m2 => m1.stop < m2.stop ∨
        (m1.stop = m2.stop ∧ m1.start < m2.start)) :=
  find_matches_pairwise dict input

/-- C7 counterexample: U+0130 ('İ') has a one-to-many lowercase mapping, and
`normalize` — the one function used both on dictionary keys at insertion
(src/main.rs lines 74 and 81) and on the input line at scan time (line 112) —
expands it to the two-symbol sequence ['i', U+0307] in both places: input
scanning does not map each symbol to a single canonical folded symbol, and
dictionary insertion adds exactly one fuzzy path (the same two-symbol
image inserted by `normalize`), not every folded variant: the trie built from
the entry with key "İ" does not contain the single-symbol variant "i" as a
path. -/
theorem C7_counterexample :
    normalize ['İ'] = ['i', '̇'] ∧ (normalize ['İ']).length ≠ 1 ∧
      isTerminalAt (buildDict false true [("l", ['İ'])]) ['i', '̇'] = true ∧
      isTerminalAt (buildDict false true [("l", ['İ'])]) ['i'] = false := by
  decide

/-- C7 amended: dictionary insertion and input scanning apply the same
normalization function `normalize`: a symbol with a one-to-many case mapping
is expanded into its full folded sequence in both the inserted trie path and
the scanned input. With fuzzy on and whole-word off, the trie built from one
entry has exactly two terminal paths: the literal key and the single path
`normalize key` — the very sequence the scan pass computes for the same text;
no expansion into multiple folded variants occurs on either side. -/
theorem C7_normalization_symmetric (lbl : String) (key p : List Char) :
    isTerminalAt (buildDict false true [(lbl, key)]) p = true ↔
      p = key ∨ p = normalize key := by
  rw [isTerminalAt_buildDict]
  simp [entryPaths]

/-- C8: the normalization function is idempotent: for every input symbol
sequence, applying `normalize` twice yields the same symbol sequence as
applying it once. -/
theorem C8_normalize_idempotent (s : List Char) :
    normalize (normalize s) = normalize s :=
  normalize_idem s

/-- C9: every match returned by `find_matches` references a trie node whose
value is present (the scanner only emits a match when the candidate's cursor
sits on a terminal node), so the `unwrap` of `m.node.value` in `main`'s two
output loops never fails, for any dictionary and any input line. -/
theorem C9_unwrap_safe {V : Type} (dict : SuffixTree Char V)
    (input : List Char) :
    List.Forall (fun m => m.node.value.isSome = true)
      (find_matches dict input) := by
  rw [List.forall_iff_forall_mem]
  intro m hm
  exact (mem_find_matches_sound hm).2.2.2.2

/-- C10 counterexample: with whole-word mode on, dictionary key "cat" — which
does not begin with a space — and line "cat sat", the strict pass emits the
match of the path " cat " with start = 0 (the inserted whole-word path begins
with the boundary sentinel, which is the wrapped line's first symbol), so the
printed `m.start - 1` underflows the unsigned subtraction, contradicting the
claim's "regardless of the whole-word flag". -/
theorem C10_counterexample :
    (find_matches (buildDict true false [("l", ['c', 'a', 't'])])
        (sentinelWrap (String.toList "cat sat"))).map
      (fun m => (m.start, m.stop)) = [(0, 5)] := by
  decide

/-- C10 amended: `main` wraps each scanned line in one leading and one
trailing space sentinel in both passes and prints start - 1 and end - 1; with
whole-word mode OFF, under the hypothesis that no dictionary key begins with
the space symbol, every emitted match of both passes has start ≥ 1 and
end ≥ 1, so the unsigned subtractions never underflow. (Restricting to
whole-word off is forced by the counterexample: with whole-word on every
inserted path begins with the sentinel, and a line starting with a dictionary
word yields a match with start = 0.) -/
theorem C10_no_underflow (fz : Bool) (entries : List (String × List Char))
    (L : List Char) (hk : ∀ e ∈ entries, (e.2).head? ≠ some ' ') :
    List.Forall (fun m => 1 ≤ m.start ∧ 1 ≤ m.stop)
      (find_matches (buildDict false fz entries) (sentinelWrap L)) ∧
    List.Forall (fun m => 1 ≤ m.start ∧ 1 ≤ m.stop)
      (find_matches (buildDict false fz entries)
        (sentinelWrap (normalize L))) :=
  ⟨forall_start_pos L hk, forall_start_pos (normalize L) hk⟩

/-- Witness for C10 (amended): key "cat", line "cat" — both passes. -/
theorem C10_witness :
    List.Forall (fun m => 1 ≤ m.start ∧ 1 ≤ m.stop)
      (find_matches (buildDict false false [("l", ['c', 'a', 't'])])
        (sentinelWrap ['c', 'a', 't'])) ∧
    List.Forall (fun m => 1 ≤ m.start ∧ 1 ≤ m.stop)
      (find_matches (buildDict false false [("l", ['c', 'a', 't'])])
        (sentinelWrap (normalize ['c', 'a', 't']))) :=
  C10_no_underflow false [("l", ['c', 'a', 't'])] ['c', 'a', 't'] (by decide)

end NameTagger
